import Mathlib

open List

/-!
Shallow embedding of the order-flow auction service
(`src/auction/types.py`, `src/auction/auction.py`, `src/auction/auction_house.py`).

Conventions of the embedding:
* `Wei` values and identifiers (pubkeys, tx hashes) are natural numbers;
  equality is all the code uses on identifiers.
* Python `time.time()` timestamps are integers (`ℤ`) in the model: the
  code only compares timestamps, subtracts them and floor-divides the
  difference, so only their order and integer differences matter, and
  Python's float floor-division `//` on them is `Int.fdiv`.
* Python dicts are insertion-ordered association lists `List (Nat × α)`;
  `alookup` is `d.get`, `aset` is `d[k] = v` (update in place, else append).
* Python `sorted` is a stable sort, and so is `List.insertionSort` with a
  total preorder; a stable sort under a fixed comparator has a unique
  output, so `insertionSort` reproduces the source's `sorted` exactly.
* A Python operation that can raise becomes a function into `Option`:
  `none` is an uncaught exception, and a raising call leaves the state
  unchanged (in the source every mutation happens after all checks).
-/

/-- A dynamically typed Python dict value: the signature fields `v`, `r`, `s`
hold integers after decoding and are overwritten with `0` and the empty
string by the redaction in `get_txpool`. -/
inductive DVal where
  | int : Int → DVal
  | str : String → DVal
deriving DecidableEq

/-- Decoded transaction fields (`web3.types.TxData` as the source uses it).
Each field is `Option` because the source reads them as dict keys that may
be absent; a `none` read raises `KeyError`. -/
structure TxData where
  hash : Option Nat := none
  nonce : Option Nat := none
  input : Option Nat := none
  dataField : Option Nat := none
  value : Option Nat := none
  gas : Option Nat := none
  gasPrice : Option Nat := none
  maxFeePerGas : Option Nat := none
  maxPriorityFeePerGas : Option Nat := none
  accessList : Option Nat := none
  chainId : Option Nat := none
  toAddr : Option Nat := none
  fromAddr : Option Nat := none
  v : Option DVal := none
  r : Option DVal := none
  s : Option DVal := none
deriving DecidableEq

/-- The `Builder` dataclass of `src/auction/types.py`. -/
structure Builder where
  pubkey : Nat
  access : Bool
  pending_payment : Nat
deriving DecidableEq

/-- The `Transaction` dataclass of `src/auction/types.py`. -/
structure Transaction where
  hash : Nat
  data : TxData
  reserve : Nat
  submitted : ℤ
  sold : Bool
  executed : Bool
deriving DecidableEq

/-- The `Bid` dataclass of `src/auction/types.py`. -/
structure Bid where
  builder_pubkey : Nat
  tx_hash : Nat
  value : Nat
  submitted : ℤ
deriving DecidableEq

/-- The `Result` dataclass of `src/auction/types.py`. -/
structure Result where
  winner_pubkey : Nat
  tx_hash : Nat
  payment : Nat
deriving DecidableEq

/-- The `Auction` class state of `src/auction/auction.py`. -/
structure Auction where
  tx : Transaction
  bids : List Bid
deriving DecidableEq

/-- Comparator under which Python's
`sorted(bids, key=lambda b: (b.value, -b.submitted), reverse=True)`
lists the bids: `bidLe a b` holds when the sort places `a` at or before `b`,
i.e. when the key `(b.value, -b.submitted)` is lexicographically at most
`(a.value, -a.submitted)`. -/
def bidLe (a b : Bid) : Bool :=
  b.value < a.value || (b.value == a.value && a.submitted ≤ b.submitted)

/-- The sort order of `Auction.settle` as a relation. -/
def BidBefore (a b : Bid) : Prop := bidLe a b = true

instance : DecidableRel BidBefore := fun a b => instDecidableEqBool (bidLe a b) true

instance : IsTotal Bid BidBefore where
  total a b := by
    simp only [BidBefore, bidLe, Bool.or_eq_true, decide_eq_true_eq, Bool.and_eq_true, beq_iff_eq]
    rcases Nat.lt_trichotomy a.value b.value with h | h | h
    · exact Or.inr (Or.inl h)
    · rcases le_total a.submitted b.submitted with hs | hs
      · exact Or.inl (Or.inr ⟨h.symm, hs⟩)
      · exact Or.inr (Or.inr ⟨h, hs⟩)
    · exact Or.inl (Or.inl h)

instance : IsTrans Bid BidBefore where
  trans a b c hab hbc := by
    simp only [BidBefore, bidLe, Bool.or_eq_true, decide_eq_true_eq, Bool.and_eq_true,
      beq_iff_eq] at *
    rcases hab with h1 | ⟨h1, h1s⟩ <;> rcases hbc with h2 | ⟨h2, h2s⟩
    · exact Or.inl (Nat.lt_trans h2 h1)
    · exact Or.inl (h2 ▸ h1)
    · exact Or.inl (h1 ▸ h2)
    · exact Or.inr ⟨h1 ▸ h2, le_trans h1s h2s⟩

/-- Method `Auction._validate_bid`: raises unless the bid targets the
auctioned transaction and meets its reserve. -/
def Auction.validate_bid (A : Auction) (bid : Bid) : Bool :=
  bid.tx_hash == A.tx.hash && !(bid.value < A.tx.reserve)

/-- Method `Auction.submit`: validate, then append the bid. -/
def Auction.submit (A : Auction) (bid : Bid) : Option Auction :=
  if A.validate_bid bid then some { A with bids := A.bids ++ [bid] } else none

/-- Constructor `Auction.__init__`: starts from an empty bid list and routes
the seeding bid through `submit` (hence through validation). -/
def Auction.init (tx : Transaction) (bid : Bid) : Option Auction :=
  Auction.submit { tx := tx, bids := [] } bid

/-- Method `Auction.settle`: single bid pays the reserve, otherwise the
bids are sorted by `(value desc, submitted asc)` and the top bid's builder
pays the second bid's value.  Out-of-range indexing (an empty bid list)
is `none`. -/
def Auction.settle (A : Auction) : Option Result :=
  if A.bids.length = 1 then
    (A.bids[0]?).map (fun b => ⟨b.builder_pubkey, A.tx.hash, A.tx.reserve⟩)
  else
    let sorted_bids := A.bids.insertionSort BidBefore
    match sorted_bids[0]?, sorted_bids[1]? with
    | some winning_bid, some second_bid =>
        some ⟨winning_bid.builder_pubkey, A.tx.hash, second_bid.value⟩
    | _, _ => none

/-- Insertion-ordered association list standing for a Python dict. -/
abbrev PyDict (α : Type) := List (Nat × α)

/-- Python `d.get(k)` / `d[k]`. -/
def alookup {α : Type} : PyDict α → Nat → Option α
  | [], _ => none
  | (k, v) :: rest, key => if k = key then some v else alookup rest key

/-- Python `d[k] = v`: replaces the value in place when the key is present
(keeping its position), otherwise appends at the end. -/
def aset {α : Type} : PyDict α → Nat → α → PyDict α
  | [], key, v => [(key, v)]
  | (k, w) :: rest, key, v =>
      if k = key then (k, v) :: rest else (k, w) :: aset rest key v


/-- Constant `MIN_TIME_IN_TX_POOL` of `src/auction/auction_house.py`. -/
def MIN_TIME_IN_TX_POOL : Int := 1

/-- Constant `MAX_SLOTS_IN_TX_POOL` of `src/auction/auction_house.py`. -/
def MAX_SLOTS_IN_TX_POOL : Int := 10

/-- The shared maps of the `AuctionHouse` class: builders, transaction
pool, open auctions, and per-slot results. -/
structure HouseState where
  builders : PyDict Builder
  txpool : PyDict Transaction
  auctions : PyDict Auction
  results : PyDict (List (Result × TxData))
deriving DecidableEq

/-- The state built by `AuctionHouse.__init__`: four empty maps. -/
def initState : HouseState := ⟨[], [], [], []⟩

namespace AuctionHouse

/-- Method `AuctionHouse.register`. -/
def register (st : HouseState) (pubkey : Nat) : Option HouseState :=
  if (alookup st.builders pubkey).isSome then none
  else some { st with builders := aset st.builders pubkey ⟨pubkey, true, 0⟩ }

/-- Method `AuctionHouse.submit_tx`, applied to the already-decoded
transaction dict (the rlp decoding of `decode_raw_tx` happens in external
library code); `estimated_gas` is the outcome of the chain client's
`estimate_gas` call, with `none` a failing call. -/
def submit_tx (st : HouseState) (submitted : ℤ) (tx_data : TxData)
    (estimated_gas : Option Nat) : Option HouseState :=
  match tx_data.hash with
  | none => none
  | some tx_hash =>
    if (alookup st.txpool tx_hash).isSome then none
    else
      match tx_data.maxPriorityFeePerGas, estimated_gas with
      | some fee, some gas =>
          some { st with txpool := aset st.txpool tx_hash ⟨tx_hash, tx_data, fee * gas, submitted, false, false⟩ }
      | _, _ => none

/-- Signature redaction of `get_txpool`.  In the source the three key
assignments are made on `copy.copy(tx.data)`, a fresh dict, so they are a
record update producing a new value and the pooled dict is untouched. -/
def redact (d : TxData) : TxData :=
  { d with v := some (.int 0), r := some (.str ""), s := some (.str "") }

/-- One element of the `get_txpool` response. -/
structure PoolEntry where
  data : TxData
  reserve : Nat
deriving DecidableEq

/-- Method `AuctionHouse.get_txpool`.  The first component of the output
is the state after the call; because the redaction acts on copies, it is
the input state itself. -/
def get_txpool (st : HouseState) (pubkey : Nat) :
    Option (HouseState × List PoolEntry) :=
  match alookup st.builders pubkey with
  | none => none
  | some builder =>
    if !builder.access then none
    else
      some (st, st.txpool.filterMap (fun p =>
        if p.2.sold then none else some ⟨redact p.2.data, p.2.reserve⟩))

/-- Method `AuctionHouse.submit_bid`; `slot` is the value the clock read
`_get_current_slot()` yields during the call.  Returns the new state and
the advertised settlement slot. -/
def submit_bid (st : HouseState) (pubkey : Nat) (tx_hash : Nat) (value : Nat)
    (submitted : ℤ) (slot : Nat) : Option (HouseState × Nat) :=
  match alookup st.builders pubkey with
  | none => none
  | some builder =>
    if !builder.access then none
    else
      match alookup st.txpool tx_hash with
      | none => none
      | some tx =>
        if tx.sold then none
        else if value < tx.reserve then none
        else
          match (match alookup st.auctions tx_hash with
                 | some a => a.submit ⟨pubkey, tx_hash, value, submitted⟩
                 | none => Auction.init tx ⟨pubkey, tx_hash, value, submitted⟩) with
          | none => none
          | some auction =>
            let st1 := { st with auctions := aset st.auctions tx_hash auction }
            if (alookup st.results slot).isSome ||
                submitted - tx.submitted < MIN_TIME_IN_TX_POOL then
              some (st1, slot + 1)
            else
              some (st1, slot)

/-- The loop body of `AuctionHouse.settle`: walks the auctions map in
order, postponing auctions whose transaction has not yet been in the pool
for `MIN_TIME_IN_TX_POOL` seconds and settling the others (appending the
result, marking the pooled transaction sold, crediting the winner). -/
def settleLoop (started : ℤ) :
    List (Nat × Auction) → PyDict Transaction → PyDict Builder →
    List (Result × TxData) → PyDict Auction →
    Option (PyDict Transaction × PyDict Builder × List (Result × TxData) × PyDict Auction)
  | [], txpool, builders, results, postponed =>
      some (txpool, builders, results, postponed)
  | (tx_hash, auction) :: rest, txpool, builders, results, postponed =>
      match alookup txpool tx_hash with
      | none => none
      | some tx =>
        if tx.submitted ≥ started - MIN_TIME_IN_TX_POOL then
          settleLoop started rest txpool builders results (postponed ++ [(tx_hash, auction)])
        else
          match auction.settle with
          | none => none
          | some result =>
            match alookup builders result.winner_pubkey with
            | none => none
            | some b =>
              settleLoop started rest
                (aset txpool tx_hash { tx with sold := true })
                (aset builders result.winner_pubkey
                  { b with pending_payment := b.pending_payment + result.payment })
                (results ++ [(result, tx.data)])
                postponed

/-- Method `AuctionHouse.settle`: one settlement pass for `slot_number`,
with `started` the timestamp taken once at entry.  Writes the slot's
result list and replaces the auctions map with the postponed auctions. -/
def settle (st : HouseState) (slot_number : Nat) (started : ℤ) :
    Option HouseState :=
  match settleLoop started st.auctions st.txpool st.builders [] [] with
  | none => none
  | some (txpool, builders, results, postponed) =>
      some { builders := builders, txpool := txpool, auctions := postponed,
             results := aset st.results slot_number results }

/-- Method `AuctionHouse.process_executed`; `hasReceipt` abstracts the
chain client, holding exactly when `get_transaction_receipt` succeeds.
The loop deletes every pooled hash with a receipt from both maps. -/
def process_executed (st : HouseState) (hasReceipt : Nat → Bool) : HouseState :=
  let executed_txs := (st.txpool.map Prod.fst).filter hasReceipt
  { st with
    txpool := st.txpool.filter (fun p => !(executed_txs.contains p.1)),
    auctions := st.auctions.filter (fun p => !(executed_txs.contains p.1)) }

/-- Method `AuctionHouse.process_expired`: every pooled transaction older
than `MAX_SLOTS_IN_TX_POOL` slots is broadcast (its data re-encoded and
passed to `send_raw_transaction`) and removed from both maps.  The second
component lists the broadcast transaction hashes in order. -/
def process_expired (st : HouseState) (now : ℤ) : HouseState × List Nat :=
  let expired_txs := (st.txpool.filter
    (fun p => decide ((now - p.2.submitted).fdiv 12 > MAX_SLOTS_IN_TX_POOL))).map Prod.fst
  ({ st with
     txpool := st.txpool.filter (fun p => !(expired_txs.contains p.1)),
     auctions := st.auctions.filter (fun p => !(expired_txs.contains p.1)) },
   expired_txs)

/-- One iteration of the body of `AuctionHouse.run_cleanup` once a new
block is observed: `process_executed` runs first, then `process_expired`
on the resulting state. -/
def run_cleanup_iteration (st : HouseState) (hasReceipt : Nat → Bool) (now : ℤ) :
    HouseState × List Nat :=
  process_expired (process_executed st hasReceipt) now

/-- A successful operation of the public interface or of the background
loops, relating the state before to the state after. -/
inductive Step : HouseState → HouseState → Prop where
  | register {st st' : HouseState} (pubkey : Nat) :
      register st pubkey = some st' → Step st st'
  | submit_tx {st st' : HouseState} (submitted : ℤ) (tx_data : TxData)
      (estimated_gas : Option Nat) :
      submit_tx st submitted tx_data estimated_gas = some st' → Step st st'
  | get_txpool {st st' : HouseState} (pubkey : Nat) (out : List PoolEntry) :
      get_txpool st pubkey = some (st', out) → Step st st'
  | submit_bid {st st' : HouseState} (pubkey tx_hash value : Nat)
      (submitted : ℤ) (slot : Nat) (out : Nat) :
      submit_bid st pubkey tx_hash value submitted slot = some (st', out) → Step st st'
  | settle {st st' : HouseState} (slot_number : Nat) (started : ℤ) :
      settle st slot_number started = some st' → Step st st'
  | process_executed {st st' : HouseState} (hasReceipt : Nat → Bool) :
      process_executed st hasReceipt = st' → Step st st'
  | process_expired {st st' : HouseState} (now : ℤ) (out : List Nat) :
      process_expired st now = (st', out) → Step st st'

/-- States reachable from the freshly constructed `AuctionHouse` by any
sequence of successful operations. -/
inductive Reachable : HouseState → Prop where
  | init : Reachable initState
  | step {st st' : HouseState} : Reachable st → Step st st' → Reachable st'

end AuctionHouse

/-- Total pending payment over the builders map. -/
def totalPending : PyDict Builder → Nat
  | [] => 0
  | (_, b) :: rest => b.pending_payment + totalPending rest

/-- Sum of the payments of a slot's result list. -/
def sumPayments : List (Result × TxData) → Nat
  | [] => 0
  | x :: rest => x.1.payment + sumPayments rest

/-- Values of a list of bids, sorted descending: position 1 holds the
second-highest bid value (with multiplicity). -/
def sortedValuesDesc (bids : List Bid) : List Nat :=
  (bids.map Bid.value).insertionSort (· ≥ ·)

/-- A concrete two-bid auction used to witness the second-price theorem. -/
def aucW : Auction :=
  ⟨⟨9, {}, 5, 0, false, false⟩, [⟨1, 9, 10, 1⟩, ⟨2, 9, 20, 2⟩]⟩

/-- Auctions reachable through the public interface: built by the
constructor from a seeding bid and grown by `submit`. -/
inductive ReachableAuction : Auction → Prop where
  | init {tx : Transaction} {bid : Bid} {A : Auction} :
      Auction.init tx bid = some A → ReachableAuction A
  | submit {A A2 : Auction} {bid : Bid} :
      ReachableAuction A → Auction.submit A bid = some A2 → ReachableAuction A2

/-- The decoded transaction dict of the witness scenarios: an EIP-1559
transaction with hash 9 and priority fee 3. -/
def tdW : TxData := { hash := some 9, maxFeePerGas := some 7, maxPriorityFeePerGas := some 3 }

/-- The pooled witness transaction: reserve `3 * 7 = 21`, submitted at 0. -/
def txW : Transaction := ⟨9, tdW, 21, 0, false, false⟩

/-- Witness state: one registered builder, one pooled transaction, one
open auction holding a single bid of 25. -/
def stW : HouseState :=
  ⟨[(1, ⟨1, true, 0⟩)], [(9, txW)], [(9, ⟨txW, [⟨1, 9, 25, 2⟩]⟩)], []⟩

/-- The state produced by settling `stW` at slot 5. -/
def stW2 : HouseState :=
  ⟨[(1, ⟨1, true, 21⟩)], [(9, { txW with sold := true })], [],
   [(5, [(⟨1, 9, 21⟩, tdW)])]⟩

/-- Spec section 8 pool invariant: every hash in the auctions map is a
pooled transaction that is not sold. -/
def PoolInv (st : HouseState) : Prop :=
  ∀ p ∈ st.auctions, ∃ tx, alookup st.txpool p.1 = some tx ∧ tx.sold = false

/-- Auxiliary strengthening of the pool invariant: the auctions map also
has no duplicate keys (Python dict keys are unique). -/
def StrongInv (st : HouseState) : Prop :=
  PoolInv st ∧ (st.auctions.map Prod.fst).Nodup

/-- State after registering builder 1. -/
def stRegW : HouseState := ⟨[(1, ⟨1, true, 0⟩)], [], [], []⟩

/-- State after additionally admitting the witness transaction. -/
def stTxW : HouseState := ⟨[(1, ⟨1, true, 0⟩)], [(9, txW)], [], []⟩

/-- A decoded legacy transaction dict: the fee field is `gasPrice`, and
`maxPriorityFeePerGas` is absent. -/
def tdLegacy : TxData :=
  { hash := some 7, nonce := some 0, gasPrice := some 5, gas := some 21000,
    v := some (.int 27), r := some (.int 1), s := some (.int 1) }

/-- A decoded EIP-1559 transaction dict used by the admission witness. -/
def td1559 : TxData :=
  { hash := some 7, nonce := some 0, maxFeePerGas := some 9, maxPriorityFeePerGas := some 5,
    gas := some 21000, v := some (.int 0), r := some (.int 1), s := some (.int 1) }

/-- The state after admitting `td1559` with an estimate of 21000 gas:
reserve is `5 * 21000`. -/
def stTx1559 : HouseState := ⟨[], [(7, ⟨7, td1559, 105000, 0, false, false⟩)], [], []⟩

/-- A state with one unsold and one sold pooled transaction, used by the
`get_txpool` witnesses. -/
def stC8 : HouseState :=
  ⟨[(1, ⟨1, true, 0⟩)], [(9, txW), (8, ⟨8, tdW, 21, 0, true, false⟩)], [], []⟩

/-- The `get_txpool` output on `stC8`: the sold transaction 8 is dropped,
transaction 9 appears redacted. -/
def outC10 : List AuctionHouse.PoolEntry :=
  [⟨{ tdW with v := some (.int 0), r := some (.str ""), s := some (.str "") }, 21⟩]

/-- Looking up the key just set yields the new value. -/
theorem alookup_aset_self {α : Type} (m : PyDict α) (k : Nat) (v : α) :
    alookup (aset m k v) k = some v := by
  induction m with
  | nil => simp [aset, alookup]
  | cons q rest ih =>
    obtain ⟨k0, w⟩ := q
    by_cases h : k0 = k <;> simp [aset, alookup, h, ih]

/-- Setting one key does not change the lookup of another. -/
theorem alookup_aset_ne {α : Type} (m : PyDict α) {k k' : Nat} (v : α)
    (h : k' ≠ k) : alookup (aset m k v) k' = alookup m k' := by
  induction m with
  | nil =>
    have hne : k ≠ k' := fun he => h he.symm
    simp [aset, alookup, hne]
  | cons q rest ih =>
    obtain ⟨k0, w⟩ := q
    by_cases h0 : k0 = k
    · subst h0
      have hne : k0 ≠ k' := fun he => h he.symm
      simp [aset, alookup, hne]
    · simp [aset, alookup, h0, ih]

/-- Every entry of `aset m k v` is the new binding or an entry of `m`. -/
theorem mem_aset {α : Type} {m : PyDict α} {k : Nat} {v : α} {p : Nat × α}
    (h : p ∈ aset m k v) : p = (k, v) ∨ p ∈ m := by
  induction m with
  | nil => simpa [aset] using h
  | cons q rest ih =>
    obtain ⟨k0, w⟩ := q
    by_cases h0 : k0 = k
    · subst h0
      rcases (by simpa [aset] using h : p = (k0, v) ∨ p ∈ rest) with h1 | h1
      · exact Or.inl h1
      · exact Or.inr (List.mem_cons_of_mem _ h1)
    · rcases (by simpa [aset, h0] using h : p = (k0, w) ∨ p ∈ aset rest k v) with h1 | h1
      · exact Or.inr (by simp [h1])
      · rcases ih h1 with h2 | h2
        · exact Or.inl h2
        · exact Or.inr (List.mem_cons_of_mem _ h2)

/-- A lookup misses exactly when the key is absent. -/
theorem alookup_eq_none_iff {α : Type} {m : PyDict α} {k : Nat} :
    alookup m k = none ↔ k ∉ m.map Prod.fst := by
  induction m with
  | nil => simp [alookup]
  | cons q rest ih =>
    obtain ⟨k0, w⟩ := q
    by_cases h0 : k0 = k
    · subst h0
      simp [alookup]
    · have hne : ¬ k = k0 := fun he => h0 he.symm
      simp [alookup, h0, ih, hne]

/-- Updating a present key leaves the key sequence unchanged. -/
theorem map_fst_aset_of_lookup {α : Type} {m : PyDict α} {k : Nat} {b : α}
    (v : α) (h : alookup m k = some b) :
    (aset m k v).map Prod.fst = m.map Prod.fst := by
  induction m with
  | nil => simp [alookup] at h
  | cons q rest ih =>
    obtain ⟨k0, w⟩ := q
    by_cases h0 : k0 = k
    · simp [aset, h0]
    · simp only [alookup, if_neg h0] at h
      simp [aset, h0, ih h]

/-- Setting an absent key appends it at the end of the key sequence. -/
theorem map_fst_aset_of_none {α : Type} {m : PyDict α} {k : Nat} (v : α)
    (h : alookup m k = none) :
    (aset m k v).map Prod.fst = m.map Prod.fst ++ [k] := by
  induction m with
  | nil => simp [aset]
  | cons q rest ih =>
    obtain ⟨k0, w⟩ := q
    by_cases h0 : k0 = k
    · simp [alookup, h0] at h
    · simp only [alookup, if_neg h0] at h
      simp [aset, h0, ih h]

/-- Appending one result adds its payment to the sum. -/
theorem sumPayments_append (l : List (Result × TxData)) (x : Result × TxData) :
    sumPayments (l ++ [x]) = sumPayments l + x.1.payment := by
  induction l with
  | nil => simp [sumPayments]
  | cons y rest ih => simp [sumPayments, ih]; omega

/-- Crediting a registered builder raises the total pending payment by
exactly the credited amount. -/
theorem totalPending_credit {m : PyDict Builder} {k : Nat} {b : Builder}
    (h : alookup m k = some b) (pay : Nat) :
    totalPending (aset m k { b with pending_payment := b.pending_payment + pay }) =
      totalPending m + pay := by
  induction m with
  | nil => simp [alookup] at h
  | cons q rest ih =>
    obtain ⟨k0, w⟩ := q
    by_cases h0 : k0 = k
    · simp only [alookup, if_pos h0] at h
      cases h
      simp [aset, h0, totalPending]
      omega
    · simp only [alookup, if_neg h0] at h
      simp [aset, h0, totalPending, ih h]
      omega

/-- A list with at least two elements starts with two cons cells. -/
theorem exists_cons_cons_of_length {α : Type} {l : List α} (h : 2 ≤ l.length) :
    ∃ a b t, l = a :: b :: t := by
  rcases l with _ | ⟨a, _ | ⟨b, t⟩⟩
  · simp at h
  · simp at h
  · exact ⟨a, b, t, rfl⟩

/-- A bid placed earlier by the sort has at least the value of any later one. -/
theorem bidBefore_value_le {a b : Bid} (h : BidBefore a b) : b.value ≤ a.value := by
  simp only [BidBefore, bidLe, Bool.or_eq_true, decide_eq_true_eq, Bool.and_eq_true,
    beq_iff_eq] at h
  rcases h with h | ⟨h, -⟩
  · exact Nat.le_of_lt h
  · exact Nat.le_of_eq h

/-- On equal values, the sort places the earlier submission first. -/
theorem bidBefore_tie_submitted {a b : Bid} (h : BidBefore a b)
    (hv : b.value = a.value) : a.submitted ≤ b.submitted := by
  simp only [BidBefore, bidLe, Bool.or_eq_true, decide_eq_true_eq, Bool.and_eq_true,
    beq_iff_eq] at h
  rcases h with h | ⟨-, hs⟩
  · omega
  · exact hs

/-- With at least two bids, `settle` returns the head of the sorted list as
winner and the value of the bid in position 1 as payment. -/
theorem settle_of_two_le (A : Auction) (h2 : 2 ≤ A.bids.length) :
    ∃ w s t, A.bids.insertionSort BidBefore = w :: s :: t ∧
      A.settle = some ⟨w.builder_pubkey, A.tx.hash, s.value⟩ := by
  have hlen : (A.bids.insertionSort BidBefore).length = A.bids.length :=
    List.length_insertionSort _ _
  obtain ⟨w, s, t, hws⟩ :=
    @exists_cons_cons_of_length Bid (A.bids.insertionSort BidBefore) (by omega)
  refine ⟨w, s, t, hws, ?_⟩
  have hne : ¬ A.bids.length = 1 := by omega
  simp [Auction.settle, hne, hws]

/-- C1: with at least two bids, `settle` names the builder of a
maximum-value bid as winner, resolving value ties towards the earliest
submission timestamp, and the payment is the second-highest bid value
(position 1 of the descending value list, so the reserve plays no
part in the price). -/
theorem settle_vickrey (A : Auction) (h2 : 2 ≤ A.bids.length) :
    ∃ w : Bid, ∃ res : Result, A.settle = some res ∧
      w ∈ A.bids ∧ res.winner_pubkey = w.builder_pubkey ∧ res.tx_hash = A.tx.hash ∧
      (∀ b ∈ A.bids, b.value ≤ w.value) ∧
      (∀ b ∈ A.bids, b.value = w.value → w.submitted ≤ b.submitted) ∧
      (sortedValuesDesc A.bids)[1]? = some res.payment := by
  obtain ⟨w, s, t, hws, hset⟩ := settle_of_two_le A h2
  have hperm : A.bids.insertionSort BidBefore ~ A.bids := List.perm_insertionSort _ _
  have hsorted : List.Sorted BidBefore (A.bids.insertionSort BidBefore) :=
    List.sorted_insertionSort _ _
  refine ⟨w, _, hset, ?_, rfl, rfl, ?_, ?_, ?_⟩
  · have hw : w ∈ A.bids.insertionSort BidBefore := by
      rw [hws]; exact List.mem_cons_self _ _
    exact hperm.mem_iff.mp hw
  · intro b hb
    have hbmem : b ∈ w :: s :: t := by
      rw [← hws]; exact hperm.mem_iff.mpr hb
    rcases List.mem_cons.mp hbmem with rfl | htail
    · exact Nat.le_refl _
    · have hwb : BidBefore w b := by
        rw [hws] at hsorted
        exact List.rel_of_sorted_cons hsorted b htail
      exact bidBefore_value_le hwb
  · intro b hb hv
    have hbmem : b ∈ w :: s :: t := by
      rw [← hws]; exact hperm.mem_iff.mpr hb
    rcases List.mem_cons.mp hbmem with rfl | htail
    · exact le_refl _
    · have hwb : BidBefore w b := by
        rw [hws] at hsorted
        exact List.rel_of_sorted_cons hsorted b htail
      exact bidBefore_tie_submitted hwb hv
  · have hmapsorted :
        List.Sorted (α := Nat) (· ≥ ·) ((A.bids.insertionSort BidBefore).map Bid.value) :=
      List.pairwise_map.mpr (hsorted.imp (fun hab => bidBefore_value_le hab))
    have hmapperm :
        (A.bids.insertionSort BidBefore).map Bid.value ~ A.bids.map Bid.value :=
      hperm.map _
    have hsv_sorted : List.Sorted (α := Nat) (· ≥ ·) (sortedValuesDesc A.bids) :=
      List.sorted_insertionSort _ _
    have hsv_perm : sortedValuesDesc A.bids ~ A.bids.map Bid.value :=
      List.perm_insertionSort _ _
    have heq : (A.bids.insertionSort BidBefore).map Bid.value = sortedValuesDesc A.bids :=
      List.eq_of_perm_of_sorted (hmapperm.trans hsv_perm.symm) hmapsorted hsv_sorted
    rw [← heq, hws]
    simp

/-- C2: an auction holding exactly one bid settles to that sole bidder as
winner, and the payment is the transaction's reserve price rather than the
bid's value. -/
theorem settle_single_bid (A : Auction) (b : Bid) (h : A.bids = [b]) :
    A.settle = some ⟨b.builder_pubkey, A.tx.hash, A.tx.reserve⟩ := by
  simp [Auction.settle, h]

/-- Witness for `settle_single_bid` at a concrete single-bid auction. -/
theorem settle_single_bid_witness :
    (Auction.mk ⟨9, {}, 100, 0, false, false⟩ [⟨1, 9, 300, 2⟩]).bids = [⟨1, 9, 300, 2⟩] ∧
    (Auction.mk ⟨9, {}, 100, 0, false, false⟩ [⟨1, 9, 300, 2⟩]).settle =
      some ⟨1, 9, 100⟩ :=
  ⟨rfl, settle_single_bid _ ⟨1, 9, 300, 2⟩ rfl⟩

/-- Witness for `settle_vickrey` at a concrete two-bid auction. -/
theorem settle_vickrey_witness :
    2 ≤ aucW.bids.length ∧
    (∃ w : Bid, ∃ res : Result, aucW.settle = some res ∧
      w ∈ aucW.bids ∧ res.winner_pubkey = w.builder_pubkey ∧ res.tx_hash = aucW.tx.hash ∧
      (∀ b ∈ aucW.bids, b.value ≤ w.value) ∧
      (∀ b ∈ aucW.bids, b.value = w.value → w.submitted ≤ b.submitted) ∧
      (sortedValuesDesc aucW.bids)[1]? = some res.payment) :=
  ⟨by decide, settle_vickrey aucW (by decide)⟩

/-- A successful `submit` appends the bid and keeps the transaction. -/
theorem submit_bids_eq {A A2 : Auction} {b : Bid}
    (h : Auction.submit A b = some A2) : A2.bids = A.bids ++ [b] ∧ A2.tx = A.tx := by
  unfold Auction.submit at h
  split at h
  · cases h
    exact ⟨rfl, rfl⟩
  · cases h

/-- C9: every auction reachable through the public interface holds at
least one bid, the single-bid branch is the only case with fewer than two
bids, and `settle` always returns a result (no out-of-range indexing). -/
theorem reachable_auction_settle_total (A : Auction) (h : ReachableAuction A) :
    1 ≤ A.bids.length ∧ (A.bids.length ≠ 1 → 2 ≤ A.bids.length) ∧ A.settle.isSome := by
  have hlen : 1 ≤ A.bids.length := by
    induction h with
    | init h0 =>
      obtain ⟨hb, -⟩ := submit_bids_eq h0
      simp [hb]
    | submit hR h0 ih =>
      obtain ⟨hb, -⟩ := submit_bids_eq h0
      simp [hb]
  refine ⟨hlen, fun hne => by omega, ?_⟩
  by_cases h1 : A.bids.length = 1
  · rw [Auction.settle, if_pos h1]
    rw [List.getElem?_eq_getElem (by omega)]
    simp
  · obtain ⟨w, s, t, -, hset⟩ := settle_of_two_le A (by omega)
    simp [hset]

/-- Witness for `reachable_auction_settle_total` at a freshly constructed
auction. -/
theorem reachable_auction_settle_total_witness :
    1 ≤ (Auction.mk ⟨9, {}, 5, 0, false, false⟩ [⟨1, 9, 10, 1⟩]).bids.length ∧
    ((Auction.mk ⟨9, {}, 5, 0, false, false⟩ [⟨1, 9, 10, 1⟩]).bids.length ≠ 1 →
      2 ≤ (Auction.mk ⟨9, {}, 5, 0, false, false⟩ [⟨1, 9, 10, 1⟩]).bids.length) ∧
    (Auction.mk ⟨9, {}, 5, 0, false, false⟩ [⟨1, 9, 10, 1⟩]).settle.isSome :=
  reachable_auction_settle_total _
    (@ReachableAuction.init ⟨9, {}, 5, 0, false, false⟩ ⟨1, 9, 10, 1⟩
      (Auction.mk ⟨9, {}, 5, 0, false, false⟩ [⟨1, 9, 10, 1⟩]) (by decide))

namespace AuctionHouse

/-- Each settled auction moves its payment into the builders map: along
the loop, total pending payment plus the payments already recorded is
conserved. -/
theorem settleLoop_payments (started : ℤ) (aucs : List (Nat × Auction)) :
    ∀ (txpool : PyDict Transaction) (builders : PyDict Builder)
      (results : List (Result × TxData)) (postponed : PyDict Auction)
      (out : PyDict Transaction × PyDict Builder × List (Result × TxData) × PyDict Auction),
      settleLoop started aucs txpool builders results postponed = some out →
      totalPending out.2.1 + sumPayments results =
        totalPending builders + sumPayments out.2.2.1 := by
  induction aucs with
  | nil =>
    intro txpool builders results postponed out h
    simp only [settleLoop] at h
    cases h
    simp
  | cons p rest ih =>
    intro txpool builders results postponed out h
    obtain ⟨tx_hash, auction⟩ := p
    simp only [settleLoop] at h
    split at h
    · cases h
    next tx hl =>
      split at h
      · exact ih _ _ _ _ _ h
      · split at h
        · cases h
        next result hset =>
          split at h
          · cases h
          next b hb =>
            have hrec := ih _ _ _ _ _ h
            rw [sumPayments_append, totalPending_credit hb] at hrec
            dsimp only at hrec
            omega

/-- C4: a settlement pass that returns normally writes the slot's result
list and increases the builders' total pending payment by exactly the sum
of the payments it recorded. -/
theorem settle_payment_conservation (st : HouseState) (slot : Nat) (started : ℤ)
    (st2 : HouseState) (h : settle st slot started = some st2) :
    ∃ res, alookup st2.results slot = some res ∧
      totalPending st2.builders = totalPending st.builders + sumPayments res := by
  unfold settle at h
  split at h
  · cases h
  next txpool builders results postponed hloop =>
    cases h
    refine ⟨results, alookup_aset_self _ _ _, ?_⟩
    have hpay := settleLoop_payments started st.auctions st.txpool st.builders [] [] _ hloop
    simpa [sumPayments] using hpay

end AuctionHouse

/-- Witness for `settle_payment_conservation` on the concrete pass
settling `stW` at slot 5. -/
theorem settle_payment_conservation_witness :
    ∃ res, alookup stW2.results 5 = some res ∧
      totalPending stW2.builders = totalPending stW.builders + sumPayments res :=
  AuctionHouse.settle_payment_conservation stW 5 100 stW2 (by decide)

/-- Looking a key up after filtering by a key predicate: the binding
survives exactly when the predicate holds of the key. -/
theorem alookup_filter_key {α : Type} (f : Nat → Bool) (m : PyDict α) (k : Nat) :
    alookup (m.filter (fun p => f p.1)) k =
      if f k = true then alookup m k else none := by
  induction m with
  | nil => cases hf : f k <;> simp [alookup, hf]
  | cons q rest ih =>
    obtain ⟨k0, w⟩ := q
    by_cases hk : k0 = k
    · subst hk
      cases hf : f k0 <;> simp [List.filter_cons, alookup, hf, ih]
    · cases hf0 : f k0 <;> cases hf : f k <;>
        simp [List.filter_cons, alookup, hf0, hf, hk, ih]

/-- A key on the removal list cannot be looked up after the removal
filter (the shape used by `process_executed` and `process_expired`). -/
theorem alookup_filter_contains_self {α : Type} (m : PyDict α) (ex : List Nat)
    {k : Nat} (h : ex.contains k = true) :
    alookup (m.filter (fun p => !(ex.contains p.1))) k = none := by
  have hm : k ∈ ex := by simpa using h
  have hkey := alookup_filter_key (fun key => !(ex.contains key)) m k
  simpa [hm] using hkey

/-- A key off the removal list keeps its binding through the removal
filter. -/
theorem alookup_filter_contains_other {α : Type} (m : PyDict α) (ex : List Nat)
    {k : Nat} (h : ex.contains k = false) :
    alookup (m.filter (fun p => !(ex.contains p.1))) k = alookup m k := by
  have hm : k ∉ ex := by simpa using h
  have hkey := alookup_filter_key (fun key => !(ex.contains key)) m k
  simpa [hm] using hkey

namespace AuctionHouse

/-- The settlement loop keeps every postponed auction backed by an
unsold pooled transaction. -/
theorem settleLoop_postponed_inv (started : ℤ) (aucs : List (Nat × Auction)) :
    ∀ (txpool : PyDict Transaction) (builders : PyDict Builder)
      (results : List (Result × TxData)) (postponed : PyDict Auction)
      (out : PyDict Transaction × PyDict Builder × List (Result × TxData) × PyDict Auction),
      settleLoop started aucs txpool builders results postponed = some out →
      (aucs.map Prod.fst).Nodup →
      (∀ p ∈ aucs, ∀ q ∈ postponed, p.1 ≠ q.1) →
      (∀ p ∈ aucs, ∃ tx, alookup txpool p.1 = some tx ∧ tx.sold = false) →
      (∀ q ∈ postponed, ∃ tx, alookup txpool q.1 = some tx ∧ tx.sold = false) →
      ∀ q ∈ out.2.2.2, ∃ tx, alookup out.1 q.1 = some tx ∧ tx.sold = false := by
  induction aucs with
  | nil =>
    intro txpool builders results postponed out h _ _ _ hpost
    simp only [settleLoop] at h
    cases h
    exact hpost
  | cons p rest ih =>
    intro txpool builders results postponed out h hnd hdisj haucs hpost
    obtain ⟨tx_hash, auction⟩ := p
    have hnd2 : (tx_hash :: rest.map Prod.fst).Nodup := by simpa using hnd
    simp only [settleLoop] at h
    split at h
    · cases h
    next tx hl =>
      split at h
      · refine ih _ _ _ _ _ h (List.nodup_cons.mp hnd2).2 ?_ ?_ ?_
        · intro p hp q hq
          rcases List.mem_append.mp hq with hq2 | hq2
          · exact hdisj p (List.mem_cons_of_mem _ hp) q hq2
          · have hqe : q = (tx_hash, auction) := by simpa using hq2
            subst hqe
            intro he
            have he2 : p.1 = tx_hash := he
            have hmem : p.1 ∈ rest.map Prod.fst := List.mem_map_of_mem _ hp
            exact (List.nodup_cons.mp hnd2).1 (he2 ▸ hmem)
        · intro p hp
          exact haucs p (List.mem_cons_of_mem _ hp)
        · intro q hq
          rcases List.mem_append.mp hq with hq2 | hq2
          · exact hpost q hq2
          · have hqe : q = (tx_hash, auction) := by simpa using hq2
            subst hqe
            obtain ⟨tx0, hl0, hs0⟩ := haucs (tx_hash, auction) (List.mem_cons_self _ _)
            rw [hl] at hl0
            cases hl0
            exact ⟨tx, hl, hs0⟩
      · split at h
        · cases h
        next result hset =>
          split at h
          · cases h
          next b hb =>
            refine ih _ _ _ _ _ h (List.nodup_cons.mp hnd2).2 ?_ ?_ ?_
            · intro p hp q hq
              exact hdisj p (List.mem_cons_of_mem _ hp) q hq
            · intro p hp
              obtain ⟨tx0, hl0, hs0⟩ := haucs p (List.mem_cons_of_mem _ hp)
              have hne : p.1 ≠ tx_hash := by
                intro he
                have hmem : p.1 ∈ rest.map Prod.fst := List.mem_map_of_mem _ hp
                exact (List.nodup_cons.mp hnd2).1 (he ▸ hmem)
              refine ⟨tx0, ?_, hs0⟩
              rw [alookup_aset_ne _ _ hne]
              exact hl0
            · intro q hq
              obtain ⟨tx0, hl0, hs0⟩ := hpost q hq
              have hne : q.1 ≠ tx_hash :=
                Ne.symm (hdisj (tx_hash, auction) (List.mem_cons_self _ _) q hq)
              refine ⟨tx0, ?_, hs0⟩
              rw [alookup_aset_ne _ _ hne]
              exact hl0

/-- The keys of the postponed auctions are drawn from the keys walked by
the loop. -/
theorem settleLoop_postponed_keys (started : ℤ) (aucs : List (Nat × Auction)) :
    ∀ (txpool : PyDict Transaction) (builders : PyDict Builder)
      (results : List (Result × TxData)) (postponed : PyDict Auction)
      (out : PyDict Transaction × PyDict Builder × List (Result × TxData) × PyDict Auction),
      settleLoop started aucs txpool builders results postponed = some out →
      out.2.2.2.map Prod.fst <+ postponed.map Prod.fst ++ aucs.map Prod.fst := by
  induction aucs with
  | nil =>
    intro txpool builders results postponed out h
    simp only [settleLoop] at h
    cases h
    simp
  | cons p rest ih =>
    intro txpool builders results postponed out h
    obtain ⟨tx_hash, auction⟩ := p
    simp only [settleLoop] at h
    split at h
    · cases h
    next tx hl =>
      split at h
      · have hs := ih _ _ _ _ _ h
        simpa [List.append_assoc] using hs
      · split at h
        · cases h
        next result hset =>
          split at h
          · cases h
          next b hb =>
            have hs := ih _ _ _ _ _ h
            simp only [List.map_cons]
            exact hs.trans (List.Sublist.append_left (List.sublist_cons_self _ _) _)

/-- Every successful operation of the interface or of the background
loops preserves the strengthened pool invariant. -/
theorem step_preserves_strongInv {st st2 : HouseState}
    (hstep : Step st st2) (hinv : StrongInv st) : StrongInv st2 := by
  obtain ⟨hpool, hnd⟩ := hinv
  cases hstep with
  | register pubkey h =>
    unfold register at h
    split at h
    · cases h
    · cases h
      exact ⟨hpool, hnd⟩
  | submit_tx submitted tx_data estimated_gas h =>
    unfold submit_tx at h
    split at h
    · cases h
    next tx_hash hhash =>
      split at h
      next hdup => cases h
      next hdup =>
        split at h
        next fee gas =>
          cases h
          refine ⟨?_, hnd⟩
          intro p hp
          obtain ⟨tx0, hl0, hs0⟩ := hpool p hp
          have hne : p.1 ≠ tx_hash := by
            intro he
            rw [he] at hl0
            exact hdup (by simp [hl0])
          refine ⟨tx0, ?_, hs0⟩
          rw [alookup_aset_ne _ _ hne]
          exact hl0
        next => cases h
  | get_txpool pubkey out h =>
    unfold get_txpool at h
    split at h
    · cases h
    next builder hbl =>
      split at h
      · cases h
      · cases h
        exact ⟨hpool, hnd⟩
  | submit_bid pubkey tx_hash value submitted slot out h =>
    unfold submit_bid at h
    split at h
    · cases h
    next builder hbl =>
      split at h
      · cases h
      · split at h
        · cases h
        next tx htx =>
          split at h
          next hsold => cases h
          next hsold =>
            split at h
            · cases h
            · split at h
              · cases h
              next auction hauc =>
                have hst2 : st2 = { st with auctions := aset st.auctions tx_hash auction } := by
                  split at h <;> (cases h; rfl)
                subst hst2
                refine ⟨?_, ?_⟩
                · intro p hp
                  rcases mem_aset hp with he | hp2
                  · subst he
                    exact ⟨tx, htx, by simpa using hsold⟩
                  · exact hpool p hp2
                · cases halookup : alookup st.auctions tx_hash with
                  | some a0 =>
                    simpa [map_fst_aset_of_lookup _ halookup] using hnd
                  | none =>
                    rw [map_fst_aset_of_none _ halookup]
                    have hnotin : tx_hash ∉ st.auctions.map Prod.fst :=
                      alookup_eq_none_iff.mp halookup
                    simp [List.nodup_append, hnd, hnotin]
  | settle slot_number started h =>
    unfold settle at h
    split at h
    · cases h
    next txpool builders results postponed hloop =>
      cases h
      refine ⟨?_, ?_⟩
      · intro q hq
        exact settleLoop_postponed_inv started st.auctions st.txpool st.builders [] [] _
          hloop hnd (by simp) hpool (by simp) q hq
      · have hsub := settleLoop_postponed_keys started st.auctions st.txpool st.builders [] [] _ hloop
        simp only [List.map_nil, List.nil_append] at hsub
        exact hnd.sublist hsub
  | process_executed hasReceipt h =>
    subst h
    refine ⟨?_, ?_⟩
    · intro p hp
      have hm := List.mem_filter.mp hp
      obtain ⟨tx0, hl0, hs0⟩ := hpool p hm.1
      refine ⟨tx0, ?_, hs0⟩
      have hcont : ((st.txpool.map Prod.fst).filter hasReceipt).contains p.1 = false := by
        simpa using hm.2
      have hgoal : (process_executed st hasReceipt).txpool =
          st.txpool.filter
            (fun q => !(((st.txpool.map Prod.fst).filter hasReceipt).contains q.1)) := rfl
      rw [hgoal, alookup_filter_contains_other _ _ hcont]
      exact hl0
    · exact hnd.sublist ((List.filter_sublist _).map _)
  | process_expired now out2 h =>
    have hst : (process_expired st now).1 = st2 := by rw [h]
    subst hst
    refine ⟨?_, ?_⟩
    · intro p hp
      have hm := List.mem_filter.mp hp
      obtain ⟨tx0, hl0, hs0⟩ := hpool p hm.1
      refine ⟨tx0, ?_, hs0⟩
      have hcont :
          (((st.txpool.filter (fun p =>
            decide ((now - p.2.submitted).fdiv 12 > MAX_SLOTS_IN_TX_POOL))).map Prod.fst).contains p.1) = false := by
        simpa using hm.2
      have hgoal : (process_expired st now).1.txpool =
          st.txpool.filter (fun q => !(((st.txpool.filter (fun q2 =>
            decide ((now - q2.2.submitted).fdiv 12 > MAX_SLOTS_IN_TX_POOL))).map Prod.fst).contains q.1)) := rfl
      rw [hgoal, alookup_filter_contains_other _ _ hcont]
      exact hl0
    · exact hnd.sublist ((List.filter_sublist _).map _)

/-- Every reachable state satisfies the strengthened invariant. -/
theorem reachable_strongInv {st : HouseState} (h : Reachable st) : StrongInv st := by
  induction h with
  | init =>
    refine ⟨?_, ?_⟩
    · intro p hp
      simp [initState] at hp
    · simp [initState]
  | step hR hstep ih => exact step_preserves_strongInv hstep ih

/-- C3: in every reachable state of the system, every hash present in the
auctions map is also a key of the txpool map, and the pooled transaction
under that hash has `sold = false`. -/
theorem reachable_pool_invariant (st : HouseState) (h : Reachable st) : PoolInv st :=
  (reachable_strongInv h).1

end AuctionHouse

/-- Witness for the pool invariant at the state reached by registering a
builder, admitting a transaction, and placing a bid. -/
theorem reachable_pool_invariant_witness : PoolInv stW :=
  AuctionHouse.reachable_pool_invariant stW
    (AuctionHouse.Reachable.step
      (AuctionHouse.Reachable.step
        (AuctionHouse.Reachable.step AuctionHouse.Reachable.init
          (@AuctionHouse.Step.register initState stRegW 1 (by decide)))
        (@AuctionHouse.Step.submit_tx stRegW stTxW 0 tdW (some 7) (by decide)))
      (@AuctionHouse.Step.submit_bid stTxW stW 1 9 25 2 0 0 (by decide)))

/-- C5 counterexample: on a legacy transaction `submit_tx` raises
`KeyError` reading the absent `maxPriorityFeePerGas` key and admits
nothing, rather than computing the legacy reserve
`gasPrice * estimated_gas`. -/
theorem submit_tx_legacy_counterexample :
    tdLegacy.gasPrice = some 5 ∧ tdLegacy.maxPriorityFeePerGas = none ∧
    AuctionHouse.submit_tx initState 0 tdLegacy (some 21000) = none ∧
    ¬ ∃ st2 : HouseState, AuctionHouse.submit_tx initState 0 tdLegacy (some 21000) = some st2 := by
  refine ⟨rfl, rfl, by decide, ?_⟩
  rintro ⟨st2, heq⟩
  have hnone : AuctionHouse.submit_tx initState 0 tdLegacy (some 21000) = none := by decide
  rw [hnone] at heq
  exact Option.noConfusion heq

/-- C5 amended: a transaction is admitted only when the decoded dict has
`hash` and `maxPriorityFeePerGas` and gas estimation succeeds; the
admitted `Transaction` then has reserve
`maxPriorityFeePerGas * estimated_gas` and `sold = executed = false`,
while a dict without `maxPriorityFeePerGas` (the legacy fee shape) always
makes `submit_tx` raise. -/
theorem submit_tx_admission (st : HouseState) (submitted : ℤ) (tx_data : TxData)
    (estimated_gas : Option Nat) :
    (tx_data.maxPriorityFeePerGas = none →
      AuctionHouse.submit_tx st submitted tx_data estimated_gas = none) ∧
    (∀ st2, AuctionHouse.submit_tx st submitted tx_data estimated_gas = some st2 →
      ∃ tx_hash fee gas, tx_data.hash = some tx_hash ∧
        tx_data.maxPriorityFeePerGas = some fee ∧ estimated_gas = some gas ∧
        alookup st.txpool tx_hash = none ∧
        st2 = { st with txpool := aset st.txpool tx_hash ⟨tx_hash, tx_data, fee * gas, submitted, false, false⟩ }) := by
  constructor
  · intro hfee
    unfold AuctionHouse.submit_tx
    cases hh : tx_data.hash with
    | none => rfl
    | some tx_hash =>
      by_cases hdup : (alookup st.txpool tx_hash).isSome
      · simp [hdup]
      · cases estimated_gas <;> simp [hdup, hfee]
  · intro st2 h
    unfold AuctionHouse.submit_tx at h
    split at h
    · cases h
    next tx_hash hhash =>
      split at h
      next hdup => cases h
      next hdup =>
        have hdupn : alookup st.txpool tx_hash = none := by
          cases halt : alookup st.txpool tx_hash with
          | none => rfl
          | some v =>
            rw [halt] at hdup
            simp at hdup
        split at h
        next x1 x2 fee gas hfee =>
          cases h
          exact ⟨tx_hash, fee, gas, hhash, hfee, rfl, hdupn, rfl⟩
        next => cases h

/-- Witness for `submit_tx_admission`: the legacy dict is rejected, the
EIP-1559 dict is admitted with reserve `maxPriorityFeePerGas * gas`. -/
theorem submit_tx_admission_witness :
    AuctionHouse.submit_tx initState 0 tdLegacy (some 21000) = none ∧
    (∃ tx_hash fee gas, td1559.hash = some tx_hash ∧
      td1559.maxPriorityFeePerGas = some fee ∧ (some 21000 : Option Nat) = some gas ∧
      alookup initState.txpool tx_hash = none ∧
      stTx1559 = { initState with txpool := aset initState.txpool tx_hash ⟨tx_hash, td1559, fee * gas, 0, false, false⟩ }) :=
  ⟨(submit_tx_admission initState 0 tdLegacy (some 21000)).1 rfl,
   (submit_tx_admission initState 0 td1559 (some 21000)).2 stTx1559 (by decide)⟩

/-- C7: one cleanup iteration runs `process_executed` first, removing
every pooled transaction with a receipt, so the following expiry phase
never hands such a transaction to `send_raw_transaction`. -/
theorem cleanup_no_duplicate_broadcast (st : HouseState) (hasReceipt : Nat → Bool)
    (now : ℤ) (h : Nat) (hr : hasReceipt h = true) :
    alookup (AuctionHouse.process_executed st hasReceipt).txpool h = none ∧
    h ∉ (AuctionHouse.run_cleanup_iteration st hasReceipt now).2 := by
  have hgoal : (AuctionHouse.process_executed st hasReceipt).txpool =
      st.txpool.filter
        (fun q => !(((st.txpool.map Prod.fst).filter hasReceipt).contains q.1)) := rfl
  have hfirst : alookup (AuctionHouse.process_executed st hasReceipt).txpool h = none := by
    by_cases hmem : h ∈ st.txpool.map Prod.fst
    · have hex : ((st.txpool.map Prod.fst).filter hasReceipt).contains h = true := by
        simp [List.mem_filter, hmem, hr]
      rw [hgoal]
      exact alookup_filter_contains_self _ _ hex
    · have hnm : h ∉ (st.txpool.map Prod.fst).filter hasReceipt :=
        fun hc => hmem (List.mem_of_mem_filter hc)
      have hex : ((st.txpool.map Prod.fst).filter hasReceipt).contains h = false := by
        simpa using hnm
      rw [hgoal, alookup_filter_contains_other _ _ hex]
      exact alookup_eq_none_iff.mpr hmem
  refine ⟨hfirst, ?_⟩
  intro hbr
  have hbr2 : h ∈ ((AuctionHouse.process_executed st hasReceipt).txpool.filter
      (fun p => decide ((now - p.2.submitted).fdiv 12 > MAX_SLOTS_IN_TX_POOL))).map Prod.fst := hbr
  have hmem2 : h ∈ (AuctionHouse.process_executed st hasReceipt).txpool.map Prod.fst := by
    obtain ⟨p, hp, hpe⟩ := List.mem_map.mp hbr2
    exact List.mem_map.mpr ⟨p, List.mem_of_mem_filter hp, hpe⟩
  exact (alookup_eq_none_iff.mp hfirst) hmem2

/-- Witness for `cleanup_no_duplicate_broadcast`: the pooled transaction
9 has a receipt and is also long expired; it is removed yet never
broadcast. -/
theorem cleanup_no_duplicate_broadcast_witness :
    (fun k => k == 9) 9 = true ∧
    (alookup (AuctionHouse.process_executed stTxW (fun k => k == 9)).txpool 9 = none ∧
     9 ∉ (AuctionHouse.run_cleanup_iteration stTxW (fun k => k == 9) 200).2) :=
  ⟨rfl, cleanup_no_duplicate_broadcast stTxW (fun k => k == 9) 200 9 rfl⟩

/-- C8: for a registered builder with access, `get_txpool` succeeds and
returns exactly the unsold pooled transactions, each carrying its data
with the signature redacted to `v = 0`, `r = ""`, `s = ""` and its
reserve; entries of sold transactions never appear. -/
theorem get_txpool_unsold_redacted (st : HouseState) (pubkey : Nat) (builder : Builder)
    (hb : alookup st.builders pubkey = some builder) (ha : builder.access = true) :
    ∃ out, AuctionHouse.get_txpool st pubkey = some (st, out) ∧
      (∀ e ∈ out, ∃ p ∈ st.txpool, p.2.sold = false ∧
        e.data = { p.2.data with v := some (.int 0), r := some (.str ""), s := some (.str "") } ∧
        e.reserve = p.2.reserve) ∧
      (∀ p ∈ st.txpool, p.2.sold = false →
        (⟨{ p.2.data with v := some (.int 0), r := some (.str ""), s := some (.str "") }, p.2.reserve⟩ : AuctionHouse.PoolEntry) ∈ out) := by
  have hout : AuctionHouse.get_txpool st pubkey =
      some (st, st.txpool.filterMap (fun p =>
        if p.2.sold then none
        else some ⟨AuctionHouse.redact p.2.data, p.2.reserve⟩)) := by
    unfold AuctionHouse.get_txpool
    rw [hb]
    simp [ha]
  refine ⟨_, hout, ?_, ?_⟩
  · intro e he
    obtain ⟨p, hp, hf⟩ := List.mem_filterMap.mp he
    by_cases hs : p.2.sold
    · rw [if_pos hs] at hf
      cases hf
    · rw [if_neg hs] at hf
      cases hf
      exact ⟨p, hp, by simpa using hs, rfl, rfl⟩
  · intro p hp hsold
    refine List.mem_filterMap.mpr ⟨p, hp, ?_⟩
    rw [hsold]
    rfl

/-- Witness for `get_txpool_unsold_redacted` on `stC8`. -/
theorem get_txpool_unsold_redacted_witness :
    alookup stC8.builders 1 = some ⟨1, true, 0⟩ ∧
    (∃ out, AuctionHouse.get_txpool stC8 1 = some (stC8, out) ∧
      (∀ e ∈ out, ∃ p ∈ stC8.txpool, p.2.sold = false ∧
        e.data = { p.2.data with v := some (.int 0), r := some (.str ""), s := some (.str "") } ∧
        e.reserve = p.2.reserve) ∧
      (∀ p ∈ stC8.txpool, p.2.sold = false →
        (⟨{ p.2.data with v := some (.int 0), r := some (.str ""), s := some (.str "") }, p.2.reserve⟩ : AuctionHouse.PoolEntry) ∈ out)) :=
  ⟨rfl, get_txpool_unsold_redacted stC8 1 ⟨1, true, 0⟩ rfl rfl⟩

/-- C10: a successful `get_txpool` call leaves the state — in particular
the pool and every stored transaction's `v`, `r`, `s` fields — unchanged,
and an immediately repeated call returns the same output. -/
theorem get_txpool_no_mutation (st : HouseState) (pubkey : Nat) (st2 : HouseState)
    (out : List AuctionHouse.PoolEntry)
    (h : AuctionHouse.get_txpool st pubkey = some (st2, out)) :
    st2 = st ∧ st2.txpool = st.txpool ∧
    AuctionHouse.get_txpool st2 pubkey = some (st2, out) := by
  have hst : st2 = st := by
    unfold AuctionHouse.get_txpool at h
    split at h
    · cases h
    next builder hbl =>
      split at h
      · cases h
      · cases h
        rfl
  subst hst
  exact ⟨rfl, rfl, h⟩

/-- Witness for `get_txpool_no_mutation` on `stC8`. -/
theorem get_txpool_no_mutation_witness :
    stC8 = stC8 ∧ stC8.txpool = stC8.txpool ∧
    AuctionHouse.get_txpool stC8 1 = some (stC8, outC10) :=
  get_txpool_no_mutation stC8 1 stC8 outC10 (by decide)
